import Mathlib

/-!
Verification development for the comparse library (src/src/abstract.py,
src/src/parser.py, src/src/generator.py).

Modelling conventions:
* Input text is modelled as `List Char`; Python `str.strip()` is `pyStrip`
  (drop leading and trailing whitespace), Python slicing `text[n:]` is
  `List.drop`, Python `str.startswith` is `List.isPrefixOf`.
* Python regular-expression matching (`re.match(pattern, text)`) is modelled
  by an oracle parameter `Oracle : Text → Text → Option Text` returning the
  matched `group(0)` of an anchored match, except for the two fixed built-in
  patterns: `Number` uses `re.match(r"\d+", text)`, embedded as the nonempty
  maximal digit prefix, and `String` uses `re.match(r"(.*?)", text)`, whose
  lazy group always matches the empty string at position 0 of any text.
* Python `None`-vs-`ParseResult` returns become `Option ParseResult`.
  The interpreter recurses unboundedly through the `Me` (self-reference)
  variant, so the embedding carries a recursion-depth fuel; `.error ()`
  models a Python non-terminating/stack-overflowing run and never occurs
  for any fuel larger than the actual recursion depth of a terminating run.
* `ASTNode.__init__` stores `value or []`, i.e. any falsy value (None, 0,
  empty string, empty list) is replaced by the empty list: `mkNode`.
-/

set_option linter.unusedVariables false

namespace Comparse

abbrev Text := List Char

def isWs (c : Char) : Bool := c.isWhitespace

/-- Trailing-whitespace strip (right half of Python `str.strip()`). -/
def dropTrail (t : Text) : Text := t.rdropWhile isWs

/-- Python `str.strip()`: drop leading and trailing whitespace. -/
def pyStrip (t : Text) : Text := (dropTrail t).dropWhile isWs

/-- Value of a decimal digit string, Python `int(s)` for a `\d+` match. -/
def decimalNat (ds : Text) : Nat := ds.foldl (fun a c => a * 10 + (c.toNat - 48)) 0

/-- AST values: Python `None`, ints, strings, `ASTNode` objects
(a `type`, a `name`, and a stored value) and lists, as produced by
`parser.py`.  `vnode ty nm v` is the node with `node_type = ty`,
`name = custom_name or node_type = nm` and `value = v`. -/
inductive Value where
  | vnone : Value
  | vint (n : Int) : Value
  | vstr (s : Text) : Value
  | vnode (ty : String) (nm : String) (val : Value) : Value
  | vlist (vs : List Value) : Value

/-- Python truthiness of the values that can reach `ASTNode.__init__`. -/
def isFalsy : Value → Bool
  | .vnone => true
  | .vint n => n == 0
  | .vstr s => s.isEmpty
  | .vlist vs => vs.isEmpty
  | .vnode _ _ _ => false

/-- `ASTNode.__init__` (parser.py lines 20-24): `self.type = node_type`,
`self.name = custom_name or node_type`, `self.value = value or []` —
the falsy coercion replaces `None`, `0`, `""` and `[]` by `[]`. -/
def mkNode (ty : String) (custom : Option String) (v : Value) : Value :=
  .vnode ty (custom.getD ty) (if isFalsy v then .vlist [] else v)

/-- `ParseResult` (parser.py lines 44-47): a matched value plus remaining text. -/
structure ParseResult where
  value : Value
  remaining : Text

/-- The Rule variants of abstract.py: `Number`, `String`, `Literal`,
`RegExp`, `Optional`, `Or`, `Conjoined`, `Me`, `Dependency`,
`GenericMinmax`.  Each carries the optional `_custom_name` where the
interpreter reads it. -/
inductive Rule where
  | number : Rule
  | str : Rule
  | literal (value : Text) (customName : Option String) : Rule
  | regexp (pat : Text) (customName : Option String) : Rule
  | optionalR (rule : Rule) (customName : Option String) : Rule
  | orR (rules : List Rule) (customName : Option String) : Rule
  | conjoinedR (rules : List Rule) (customName : Option String) : Rule
  | me : Rule
  | dependency (inner : Rule) : Rule
  | minmaxR (rule : Rule) (minCount maxCount : Nat) (customName : Option String) : Rule

/-- `lexical_rule_root` may be a single rule or a list of rules
(`Parser._parse_with_rules`, parser.py lines 215-230). -/
inductive Root where
  | single (r : Rule)
  | list (rs : List Rule)

/-- Regex oracle: `o pat t` is `group(0)` of Python `re.match(pat, t)`,
`none` when the anchored match fails. -/
abbrev Oracle := Text → Text → Option Text

/-- Interpreter outcome: `.error ()` = fuel exhausted (models a
non-terminating Python recursion), `.ok none` = Python `None` (no match),
`.ok (some res)` = a `ParseResult`. -/
abbrev Res := Except Unit (Option ParseResult)

/-- `Parser._parse_number` (parser.py lines 232-239): `re.match(r"\d+", text)`
is the maximal nonempty digit prefix; value is `int(match)`. -/
def parseNumber (t : Text) : Option ParseResult :=
  let ds := t.takeWhile Char.isDigit
  if ds.isEmpty then none
  else some ⟨mkNode "Number" none (.vint (decimalNat ds)), t.drop ds.length⟩

/-- `Parser._parse_string` (parser.py lines 241-248): strips, then matches
`re.match(r"(.*?)", text)`; the lazy group matches the empty string at
position 0 of every text, so `group(0) = group(1) = ""` always. -/
def parseString (t : Text) : Option ParseResult :=
  let t1 := pyStrip t
  some ⟨mkNode "String" none (.vstr []), t1⟩

/-- `Parser._parse_literal` (parser.py lines 250-256). -/
def parseLiteral (v : Text) (nm : Option String) (t : Text) : Option ParseResult :=
  let t1 := pyStrip t
  if v.isPrefixOf t1 then some ⟨mkNode "Literal" nm (.vstr v), t1.drop v.length⟩
  else none

/-- `Parser._parse_regexp` (parser.py lines 258-267), regex via the oracle. -/
def parseRegexp (o : Oracle) (p : Text) (nm : Option String) (t : Text) : Option ParseResult :=
  let t1 := pyStrip t
  match o p t1 with
  | some m => some ⟨mkNode "RegExp" nm (.vstr m), t1.drop m.length⟩
  | none => none

/-- The loop of `Parser._parse_or` (parser.py lines 147-154): alternatives
tried in declared order against the same starting text, first success wins. -/
def orGo {ε : Type} (f : Rule → Text → Except ε (Option ParseResult)) (nm : Option String) :
    List Rule → Text → Except ε (Option ParseResult)
  | [], _ => .ok none
  | r :: rs, t =>
    match f r t with
    | .error e => .error e
    | .ok (some res) => .ok (some ⟨mkNode "Or" nm (.vlist [res.value]), res.remaining⟩)
    | .ok none => orGo f nm rs t

/-- The sequential loop shared by `Parser._parse_conjoined` (lines 133-145)
and the list case of `Parser._parse_with_rules` (lines 215-228): apply the
rules in order, threading the raw `result.remaining`. -/
def seqGo {ε : Type} (f : Rule → Text → Except ε (Option ParseResult)) :
    List Rule → Text → List Value → Except ε (Option (List Value × Text))
  | [], cur, acc => .ok (some (acc, cur))
  | r :: rs, cur, acc =>
    match f r cur with
    | .error e => .error e
    | .ok none => .ok none
    | .ok (some res) => seqGo f rs res.remaining (acc ++ [res.value])

/-- The forced-minimum loop of `Parser._parse_minmax` (parser.py lines
104-109): `min_count` applications, each mandatory, stripping between. -/
def repMin {ε : Type} (f : Text → Except ε (Option ParseResult)) :
    Nat → Text → Except ε (Option (List Value × Text))
  | 0, cur => .ok (some ([], cur))
  | n+1, cur =>
    match f cur with
    | .error e => .error e
    | .ok none => .ok none
    | .ok (some res) =>
      match repMin f n (pyStrip res.remaining) with
      | .error e => .error e
      | .ok none => .ok none
      | .ok (some (vs, fin)) => .ok (some (res.value :: vs, fin))

/-- The bounded extra loop of `Parser._parse_minmax` (lines 123-128):
`range(max_count - min_count)` further applications, stopping on failure.
`Nat` subtraction matches Python's empty `range` for a negative argument. -/
def repExtra {ε : Type} (f : Text → Except ε (Option ParseResult)) :
    Nat → Text → Except ε (List Value × Text)
  | 0, cur => .ok ([], cur)
  | n+1, cur =>
    match f cur with
    | .error e => .error e
    | .ok none => .ok ([], cur)
    | .ok (some res) =>
      match repExtra f n (pyStrip res.remaining) with
      | .error e => .error e
      | .ok (vs, fin) => .ok (res.value :: vs, fin)

/-- The unbounded loop of `Parser._parse_minmax` (lines 111-121):
`while current_text:` apply, break on failure, append, break (keeping the
old `current_text`) when the stripped remainder is unchanged.  The loop
fuel is called with `cur.length + 1`, which never runs out: a continuing
iteration strictly shortens the text (`remaining` is a substring of the
text passed in, and differs from it), see `repUnbounded_ok`. -/
def repUnbounded {ε : Type} [Inhabited ε] (f : Text → Except ε (Option ParseResult)) :
    Nat → Text → Except ε (List Value × Text)
  | 0, _ => .error default
  | lf+1, cur =>
    if cur.isEmpty then .ok ([], cur)
    else
      match f cur with
      | .error e => .error e
      | .ok none => .ok ([], cur)
      | .ok (some res) =>
        if pyStrip res.remaining = cur then .ok ([res.value], cur)
        else
          match repUnbounded f lf (pyStrip res.remaining) with
          | .error e => .error e
          | .ok (vs, fin) => .ok (res.value :: vs, fin)

/-- `Parser._apply_rule` (parser.py lines 156-178), fuel-indexed: each
nesting level of rule application consumes one unit of fuel; `root` is the
grammar's `lexical_rule_root`, re-entered by the `Me` variant via
`_parse_with_rules` (line 172). -/
def applyRule (o : Oracle) (root : Root) : Nat → Rule → Text → Res
  | 0, _, _ => .error ()
  | fuel+1, rule, t =>
    match rule with
    | .number => .ok (parseNumber t)
    | .str => .ok (parseString t)
    | .literal v nm => .ok (parseLiteral v nm t)
    | .regexp p nm => .ok (parseRegexp o p nm t)
    | .optionalR r nm =>
      match applyRule o root fuel r t with
      | .error e => .error e
      | .ok (some res) => .ok (some ⟨mkNode "Optional" nm (.vlist [res.value]), res.remaining⟩)
      | .ok none => .ok (some ⟨mkNode "Optional" nm (.vlist [.vnone]), t⟩)
    | .orR rs nm => orGo (fun r u => applyRule o root fuel r u) nm rs t
    | .conjoinedR rs nm =>
      match seqGo (fun r u => applyRule o root fuel r u) rs (pyStrip t) [] with
      | .error e => .error e
      | .ok none => .ok none
      | .ok (some (vs, fin)) => .ok (some ⟨mkNode "Conjoined" nm (.vlist vs), fin⟩)
    | .me =>
      match root with
      | .single r => applyRule o root fuel r t
      | .list rs =>
        match seqGo (fun r u => applyRule o root fuel r u) rs t [] with
        | .error e => .error e
        | .ok none => .ok none
        | .ok (some (vs, fin)) => .ok (some ⟨.vlist vs, fin⟩)
    | .dependency r => applyRule o root fuel r t
    | .minmaxR r mn mx nm =>
      match repMin (fun u => applyRule o root fuel r u) mn (pyStrip t) with
      | .error e => .error e
      | .ok none => .ok none
      | .ok (some (vs, cur)) =>
        if mx == 0 then
          match repUnbounded (fun u => applyRule o root fuel r u) (cur.length + 1) cur with
          | .error e => .error e
          | .ok (vs2, fin) => .ok (some ⟨mkNode "Minmax" nm (.vlist (vs ++ vs2)), fin⟩)
        else
          match repExtra (fun u => applyRule o root fuel r u) (mx - mn) cur with
          | .error e => .error e
          | .ok (vs2, fin) => .ok (some ⟨mkNode "Minmax" nm (.vlist (vs ++ vs2)), fin⟩)

/-- `Parser._parse_with_rules` (parser.py lines 215-230). -/
def parseWithRules (o : Oracle) (fuel : Nat) (root : Root) (t : Text) : Res :=
  match root with
  | .single r => applyRule o root fuel r t
  | .list rs =>
    match seqGo (fun r u => applyRule o root fuel r u) rs t [] with
    | .error e => .error e
    | .ok none => .ok none
    | .ok (some (vs, fin)) => .ok (some ⟨.vlist vs, fin⟩)

/-- Python `str.replace(pat, "")`, left-to-right and non-overlapping, as
used by `Parser._clean_text` (parser.py lines 209-213).  The inner fuel
`t.length` always suffices: every step consumes at least one character. -/
def replaceAll (pat t : Text) : Text :=
  if pat.isEmpty then t else go t.length t
where
  go : Nat → Text → Text
  | 0, l => l
  | fuel+1, [] => []
  | fuel+1, c :: rest =>
    if pat.isPrefixOf (c :: rest) then go fuel ((c :: rest).drop pat.length)
    else c :: go fuel rest

/-- `Parser._clean_text`: strip every ignore-literal from the input.
The ignore tuple is modelled as the list of its `Literal` values (non-Literal
entries are skipped by the source). -/
def cleanText (ignore : List Text) (t : Text) : Text :=
  ignore.foldl (fun acc p => replaceAll p acc) t

/-- A Grammar: name, root rule(s), ignore-literals, optional transform hook
(`Parser.__init__` / `parse`, with the default `content` hook). -/
structure Grammar where
  name : String
  root : Root
  ignore : List Text
  transform : Option (List Value → Value) := none

/-- Outcome of top-level `Parser.parse`: the two `ValueError` cases carry
exactly what the messages carry (cleaned input / offending remaining text). -/
inductive ParseOutcome where
  | success (v : Value)
  | noMatch (cleaned : Text)
  | notConsumed (remaining : Text)

/-- parser.py lines 193-196: wrap a non-list root value into a list. -/
def resultValues : Value → List Value
  | .vlist vs => vs
  | v => [v]

/-- parser.py lines 198-207: the default `content` hook hands back the
parsed values; with a `transform` hook its result is returned, else the
values are wrapped into a node named after the grammar. -/
def finishValue (g : Grammar) (vals : List Value) : Value :=
  match g.transform with
  | some f => f vals
  | none => mkNode g.name none (.vlist vals)

/-- `Parser.parse` (parser.py lines 180-207). -/
def parse (o : Oracle) (fuel : Nat) (g : Grammar) (t : Text) : Except Unit ParseOutcome :=
  let cleaned := cleanText g.ignore t
  match parseWithRules o fuel g.root cleaned with
  | .error e => .error e
  | .ok none => .ok (.noMatch cleaned)
  | .ok (some res) =>
    if (pyStrip res.remaining).isEmpty then
      .ok (.success (finishValue g (resultValues res.value)))
    else .ok (.notConsumed res.remaining)

/-- Characterization of the unbounded repetition loop, as amended: starting
from `cur`, the loop either stops because the text is empty, because an
application of the inner rule fails, or because an application succeeds but
leaves the stripped remainder unchanged (appending that last value), and
otherwise appends the value and continues on the stripped remainder. -/
inductive UnboundedRun (f : Text → Res) : Text → List Value → Text → Prop where
  | empty : UnboundedRun f [] [] []
  | fail (cur : Text) : cur ≠ [] → f cur = .ok none → UnboundedRun f cur [] cur
  | stagnate (cur : Text) (res : ParseResult) : cur ≠ [] → f cur = .ok (some res) →
      pyStrip res.remaining = cur → UnboundedRun f cur [res.value] cur
  | step (cur : Text) (res : ParseResult) (vs : List Value) (fin : Text) :
      cur ≠ [] → f cur = .ok (some res) → pyStrip res.remaining ≠ cur →
      UnboundedRun f (pyStrip res.remaining) vs fin →
      UnboundedRun f cur (res.value :: vs) fin

/-! ### The generated standalone routines (generator.py)

`CodeTemplateManager` emits one Python method per processed rule definition;
`genApply` is the semantics of those emitted methods, read off the code
templates (generator.py lines 141-283).  `RuleProcessor.process_rule` builds
rule definitions only for `Literal`, `RegExp`, `Optional`, `Or`, `Conjoined`
and `GenericMinmax` (lines 70-84), and `generate_rule_methods` emits methods
only for those six types (lines 104-130); for every other variant — `Number`,
`String`, `Me`, `Dependency` — the emitted caller references a
`_parse_<id>` method that is never generated, so running the generated
parser raises `AttributeError`: modelled as `.error .missingRoutine`. -/

/-- Failure of a generated routine: a referenced method that was never
emitted (Python `AttributeError`), or fuel exhaustion of the embedding. -/
inductive GenErr where
  | missingRoutine : GenErr
  | fuelOut : GenErr
deriving DecidableEq

instance : Inhabited GenErr := ⟨.fuelOut⟩

/-- generator.py line 159: `pattern.replace("\\", "\\\\")` — the pattern is
embedded into an `r"..."` source literal after doubling each backslash, so
the regex the generated parser compiles has every backslash doubled. -/
def escapeBackslash (p : Text) : Text :=
  p.flatMap (fun c => if c = '\\' then ['\\', '\\'] else [c])

/-- Semantics of the generated `_parse_<id>` methods
(`CodeTemplateManager._generate_*_method`, generator.py lines 141-283).
The six supported variants reproduce the interpreter's structure (the
emitted `custom_name` is the rule's custom name or its class name, which
leaves every node name unchanged except `GenericMinmax`, whose default
node name becomes `"GenericMinmax"` instead of the interpreter's
`"Minmax"`); `RegExp` patterns are backslash-escaped (line 159); the four
unsupported variants have no emitted method. -/
def genApply (o : Oracle) : Nat → Rule → Text → Except GenErr (Option ParseResult)
  | 0, _, _ => .error .fuelOut
  | fuel+1, rule, t =>
    match rule with
    | .number => .error .missingRoutine
    | .str => .error .missingRoutine
    | .me => .error .missingRoutine
    | .dependency _ => .error .missingRoutine
    | .literal v nm => .ok (parseLiteral v nm t)
    | .regexp p nm => .ok (parseRegexp o (escapeBackslash p) nm t)
    | .optionalR r nm =>
      match genApply o fuel r t with
      | .error e => .error e
      | .ok (some res) => .ok (some ⟨mkNode "Optional" nm (.vlist [res.value]), res.remaining⟩)
      | .ok none => .ok (some ⟨mkNode "Optional" nm (.vlist [.vnone]), t⟩)
    | .orR rs nm => orGo (fun r u => genApply o fuel r u) nm rs t
    | .conjoinedR rs nm =>
      match seqGo (fun r u => genApply o fuel r u) rs (pyStrip t) [] with
      | .error e => .error e
      | .ok none => .ok none
      | .ok (some (vs, fin)) => .ok (some ⟨mkNode "Conjoined" nm (.vlist vs), fin⟩)
    | .minmaxR r mn mx nm =>
      match repMin (fun u => genApply o fuel r u) mn (pyStrip t) with
      | .error e => .error e
      | .ok none => .ok none
      | .ok (some (vs, cur)) =>
        if mx == 0 then
          match repUnbounded (fun u => genApply o fuel r u) (cur.length + 1) cur with
          | .error e => .error e
          | .ok (vs2, fin) =>
            .ok (some ⟨mkNode "Minmax" (some (nm.getD "GenericMinmax")) (.vlist (vs ++ vs2)), fin⟩)
        else
          match repExtra (fun u => genApply o fuel r u) (mx - mn) cur with
          | .error e => .error e
          | .ok (vs2, fin) =>
            .ok (some ⟨mkNode "Minmax" (some (nm.getD "GenericMinmax")) (.vlist (vs ++ vs2)), fin⟩)

/-- Outcome of the generated `parse` method (generator.py lines 329-338):
unlike the interpreter it returns the root `ParseResult` directly, without
the grammar-name wrapper or the `content`/`transform` hooks. -/
inductive GenOutcome where
  | success (res : ParseResult)
  | noMatch (cleaned : Text)
  | notConsumed (remaining : Text)

/-- The generated parser's `parse`: `_clean_text` (same ignore-literals),
`_parse_root`, the same full-consumption check.  A list-valued
`lexical_rule_root` matches none of `process_rule`'s six cases, so the
emitted `_parse_root` references an unemitted method. -/
def genParse (o : Oracle) (fuel : Nat) (g : Grammar) (t : Text) :
    Except GenErr GenOutcome :=
  let cleaned := cleanText g.ignore t
  match g.root with
  | .list _ => .error .missingRoutine
  | .single r =>
    match genApply o fuel r cleaned with
    | .error e => .error e
    | .ok none => .ok (.noMatch cleaned)
    | .ok (some res) =>
      if (pyStrip res.remaining).isEmpty then .ok (.success res)
      else .ok (.notConsumed res.remaining)

/-! ### The generator's rule-graph traversal (RuleProcessor, generator.py)

`process_rule` walks the runtime object graph of Rule instances.  Python
objects are modelled as a finite heap `Store` from object ids to rule
shapes whose children are object ids; sharing is two parents holding the
same child id.  `Me` has no children, so a graph that is "cyclic only
through SelfReference" is an arbitrary finite heap here — the model even
allows true cycles, which the memoization also handles. -/

/-- The stable identifier `f"{rule_name}_{id(rule)}"` (generator.py line 58):
the resolved rule name (custom name or class name) plus the runtime object
identity. -/
structure RuleId where
  name : String
  objId : Nat
deriving DecidableEq

/-- The shape of one Rule object in the heap; children are object ids. -/
inductive Shape where
  | number : Shape
  | str : Shape
  | me : Shape
  | literal (v : Text) : Shape
  | regexp (p : Text) : Shape
  | optionalS (child : Nat) : Shape
  | orS (children : List Nat) : Shape
  | conjoinedS (children : List Nat) : Shape
  | minmaxS (child : Nat) (mn mx : Nat) : Shape
  | dependencyS (child : Nat) : Shape
deriving DecidableEq

/-- A heap entry: the shape plus the optional `_custom_name`. -/
structure Entry where
  shape : Shape
  customName : Option String
deriving DecidableEq

/-- `rule.__class__.__name__` per shape. -/
def className : Shape → String
  | .number => "Number"
  | .str => "String"
  | .me => "Me"
  | .literal _ => "Literal"
  | .regexp _ => "RegExp"
  | .optionalS _ => "Optional"
  | .orS _ => "Or"
  | .conjoinedS _ => "Conjoined"
  | .minmaxS _ _ _ => "GenericMinmax"
  | .dependencyS _ => "Dependency"

/-- generator.py lines 56-58: `rule_name = getattr(rule, '_custom_name',
rule.__class__.__name__)`, then `rule_id = f"{rule_name}_{id(rule)}"`. -/
def ridOf (e : Entry) (nid : Nat) : RuleId :=
  ⟨e.customName.getD (className e.shape), nid⟩

abbrev Store := List (Nat × Entry)

def lookupStore (store : Store) (nid : Nat) : Option Entry :=
  (store.find? (fun pr => pr.1 == nid)).map (fun pr => pr.2)

/-- The children `process_rule` descends into (generator.py lines 70-84):
only `Optional`, `Or`, `Conjoined` and `GenericMinmax`; in particular a
`Dependency`'s decorated rule is not descended into. -/
def shapeChildren : Shape → List Nat
  | .optionalS c => [c]
  | .orS cs => cs
  | .conjoinedS cs => cs
  | .minmaxS c _ _ => [c]
  | _ => []

/-- The rule definition dictionaries built by `process_rule`: either a
`{"rule_ref": rule_id}` reference (line 60) or a full definition whose
`name` is `rid.name` and whose payload depends on the variant; the four
variants without a dedicated branch get only type/name/id keys
(`defLeaf`, carrying the `type` value). -/
inductive RuleDef where
  | ref (rid : RuleId) : RuleDef
  | defLiteral (rid : RuleId) (v : Text) : RuleDef
  | defRegexp (rid : RuleId) (p : Text) : RuleDef
  | defOptional (rid : RuleId) (child : RuleDef) : RuleDef
  | defOr (rid : RuleId) (children : List RuleDef) : RuleDef
  | defConjoined (rid : RuleId) (children : List RuleDef) : RuleDef
  | defMinmax (rid : RuleId) (child : RuleDef) (mn mx : Nat) : RuleDef
  | defLeaf (rid : RuleId) (ty : String) : RuleDef

/-- The id at the top of a rule definition. -/
def topRid : RuleDef → RuleId
  | .ref rid => rid
  | .defLiteral rid _ => rid
  | .defRegexp rid _ => rid
  | .defOptional rid _ => rid
  | .defOr rid _ => rid
  | .defConjoined rid _ => rid
  | .defMinmax rid _ _ _ => rid
  | .defLeaf rid _ => rid

def isRef : RuleDef → Bool
  | .ref _ => true
  | _ => false

/-- Sequential processing of a child list, threading `used_rules`. -/
def procChildren (f : List RuleId → Nat → Except Unit (RuleDef × List RuleId)) :
    List Nat → List RuleId → Except Unit (List RuleDef × List RuleId)
  | [], used => .ok ([], used)
  | c :: cs, used =>
    match f used c with
    | .error e => .error e
    | .ok (d, used1) =>
      match procChildren f cs used1 with
      | .error e => .error e
      | .ok (ds, used2) => .ok (d :: ds, used2)

/-- `RuleProcessor.process_rule` (generator.py lines 53-85): memo check on
the identity-keyed `used_rules` set first (returning a `rule_ref`), else
register the id and descend per variant.  Fuel-indexed (one unit per
nesting level); `.error ()` is fuel exhaustion, or a dangling object id,
which cannot occur for a closed heap. -/
def processRule (store : Store) : Nat → List RuleId → Nat → Except Unit (RuleDef × List RuleId)
  | 0, _, _ => .error ()
  | fuel+1, used, nid =>
    match lookupStore store nid with
    | none => .error ()
    | some e =>
      let rid := ridOf e nid
      if rid ∈ used then .ok (.ref rid, used)
      else
        let used1 := rid :: used
        match e.shape with
        | .number => .ok (.defLeaf rid "Number", used1)
        | .str => .ok (.defLeaf rid "String", used1)
        | .me => .ok (.defLeaf rid "Me", used1)
        | .dependencyS _ => .ok (.defLeaf rid "Dependency", used1)
        | .literal v => .ok (.defLiteral rid v, used1)
        | .regexp p => .ok (.defRegexp rid p, used1)
        | .optionalS c =>
          match processRule store fuel used1 c with
          | .error e1 => .error e1
          | .ok (d, used2) => .ok (.defOptional rid d, used2)
        | .orS cs =>
          match procChildren (fun u n => processRule store fuel u n) cs used1 with
          | .error e1 => .error e1
          | .ok (ds, used2) => .ok (.defOr rid ds, used2)
        | .conjoinedS cs =>
          match procChildren (fun u n => processRule store fuel u n) cs used1 with
          | .error e1 => .error e1
          | .ok (ds, used2) => .ok (.defConjoined rid ds, used2)
        | .minmaxS c mn mx =>
          match processRule store fuel used1 c with
          | .error e1 => .error e1
          | .ok (d, used2) => .ok (.defMinmax rid d mn mx, used2)

/-- Every object id referenced as a child resolves in the heap (a Python
object graph is always closed: every reference points to a live object). -/
def ClosedStore (store : Store) : Bool :=
  store.all (fun pr => (shapeChildren pr.2.shape).all
    (fun c => (lookupStore store c).isSome))

/-- A rule id registered by the traversal: it is the identifier the heap
assigns to its own object id. -/
def CanonicalRid (store : Store) (rid : RuleId) : Prop :=
  ∃ e, lookupStore store rid.objId = some e ∧ rid = ridOf e rid.objId

/-- Invariant of the `used_rules` set. -/
def UsedOk (store : Store) (used : List RuleId) : Prop :=
  used.Nodup ∧ ∀ rid ∈ used, CanonicalRid store rid

/-- The distinct object ids of the heap. -/
def storeKeys (store : Store) : List Nat := (store.map Prod.fst).dedup

/-- Post-state relation of one traversal step: the threaded `used_rules`
set stays duplicate-free, canonical, and only grows. -/
def ProcInv (store : Store) (used used2 : List RuleId) : Prop :=
  used2.Nodup ∧ UsedOk store used2 ∧ ∀ x ∈ used, x ∈ used2


/-! ### Suffix lemmas about stripping

The invariant behind §3's `remaining_text` sentence: a successful rule
application returns a remainder that is a suffix either of the text it was
given or of that text stripped of leading/trailing whitespace. -/

theorem dropWhile_prefix_mono {p : Char → Bool} {x y : Text} (h : x <+: y) :
    x.dropWhile p <+: y.dropWhile p := by
  obtain ⟨s, rfl⟩ := h
  induction x with
  | nil => simp
  | cons a x' ih =>
    by_cases hp : p a
    · simpa [List.dropWhile_cons, hp] using ih
    · simp [List.dropWhile_cons, hp]

theorem dropTrail_suffix_mono {b c : Text} (h : b <:+ c) :
    dropTrail b <:+ dropTrail c := by
  rw [dropTrail, dropTrail, List.rdropWhile, List.rdropWhile, List.reverse_suffix]
  exact dropWhile_prefix_mono (by rwa [List.reverse_prefix])

theorem suffix_dropWhile_of_head_not {p : Char → Bool} {a : Char} {s' d : Text}
    (h : (a :: s') <:+ d) (ha : ¬ p a) : (a :: s') <:+ d.dropWhile p := by
  obtain ⟨u, rfl⟩ := h
  induction u with
  | nil => simp [List.dropWhile_cons, ha]
  | cons b u' ih =>
    by_cases hb : p b
    · simpa [List.dropWhile_cons, hb] using ih
    · simpa [List.dropWhile_cons, hb] using
        (List.suffix_append u' (a :: s')).trans (List.suffix_cons b _)

theorem pyStrip_suffix_mono {b c : Text} (h : b <:+ c) :
    pyStrip b <:+ pyStrip c := by
  have h1 : dropTrail b <:+ dropTrail c := dropTrail_suffix_mono h
  have h2 : pyStrip b <:+ dropTrail b := List.dropWhile_suffix _
  have h3 : pyStrip b <:+ dropTrail c := h2.trans h1
  match he : pyStrip b with
  | [] => exact List.nil_suffix
  | a :: s' =>
    have hne : List.dropWhile isWs (dropTrail b) ≠ [] := by
      rw [show List.dropWhile isWs (dropTrail b) = pyStrip b from rfl, he]; simp
    have ha : isWs ((List.dropWhile isWs (dropTrail b)).head hne) = false :=
      List.head_dropWhile_not isWs (dropTrail b) hne
    have ha' : ¬ isWs a = true := by
      simp only [show List.dropWhile isWs (dropTrail b) = a :: s' from he,
        List.head_cons] at ha
      simp [ha]
    rw [he] at h3
    exact suffix_dropWhile_of_head_not h3 ha'

theorem dropWhile_eq_self_of_prefix {p : Char → Bool} {x y : Text}
    (hxy : x <+: y) (hy : y.dropWhile p = y) : x.dropWhile p = x := by
  cases x with
  | nil => simp
  | cons a x' =>
    cases y with
    | nil => exact absurd (List.prefix_nil.mp hxy) (by simp)
    | cons b y' =>
      obtain ⟨hab, _⟩ := List.cons_prefix_cons.mp hxy
      subst hab
      by_cases hp : p a
      · rw [List.dropWhile_cons, if_pos hp] at hy
        have hlen := congrArg List.length hy
        have hle := (List.dropWhile_suffix (p := p) (l := y')).length_le
        simp at hlen; omega
      · simp [List.dropWhile_cons, hp]

theorem dropTrail_pyStrip (t : Text) : dropTrail (pyStrip t) = pyStrip t := by
  rw [dropTrail, List.rdropWhile]
  suffices h : (pyStrip t).reverse.dropWhile isWs = (pyStrip t).reverse by
    rw [h, List.reverse_reverse]
  apply dropWhile_eq_self_of_prefix (y := t.reverse.dropWhile isWs)
  · have h2 : pyStrip t <:+ dropTrail t := List.dropWhile_suffix _
    have h3 : (pyStrip t).reverse <+: (dropTrail t).reverse :=
      List.reverse_prefix.mpr h2
    rwa [dropTrail, List.rdropWhile, List.reverse_reverse] at h3
  · exact List.dropWhile_idempotent _ _

theorem pyStrip_idem (t : Text) : pyStrip (pyStrip t) = pyStrip t := by
  rw [pyStrip, dropTrail_pyStrip, pyStrip, List.dropWhile_idempotent]

/-- `RemOk a b`: `a` is a suffix of `b` or of `b` stripped. -/
def RemOk (a b : Text) : Prop := a <:+ b ∨ a <:+ pyStrip b

theorem remOk_refl (a : Text) : RemOk a a := .inl (List.suffix_refl a)

theorem remOk_strip (b : Text) : RemOk (pyStrip b) b := .inr (List.suffix_refl _)

theorem remOk_of_suffix {a b : Text} (h : a <:+ b) : RemOk a b := .inl h

theorem remOk_drop (l : Text) (n : Nat) : RemOk (l.drop n) l :=
  .inl (List.drop_suffix n l)

theorem remOk_drop_strip (b : Text) (n : Nat) : RemOk ((pyStrip b).drop n) b :=
  .inr (List.drop_suffix n (pyStrip b))

theorem remOk_trans {a b c : Text} (h1 : RemOk a b) (h2 : RemOk b c) : RemOk a c := by
  rcases h1 with h1 | h1 <;> rcases h2 with h2 | h2
  · exact .inl (h1.trans h2)
  · exact .inr (h1.trans h2)
  · exact .inr (h1.trans (pyStrip_suffix_mono h2))
  · exact .inr (h1.trans (by simpa [pyStrip_idem] using pyStrip_suffix_mono h2))

theorem remOk_of_strip {a b : Text} (h : RemOk a (pyStrip b)) : RemOk a b := by
  rcases h with h | h
  · exact .inr h
  · exact .inr (by rwa [pyStrip_idem] at h)

theorem orGo_remOk {f : Rule → Text → Res}
    (hf : ∀ r t res, f r t = .ok (some res) → RemOk res.remaining t) :
    ∀ (rs : List Rule) (nm : Option String) (t : Text) (res : ParseResult),
      orGo f nm rs t = .ok (some res) → RemOk res.remaining t := by
  intro rs
  induction rs with
  | nil => intro nm t res h; simp [orGo] at h
  | cons r rs ih =>
    intro nm t res h
    rw [orGo] at h
    split at h
    · simp at h
    · rename_i ir heq
      cases h
      exact hf r t ir heq
    · exact ih nm t res h

theorem seqGo_remOk {f : Rule → Text → Res}
    (hf : ∀ r t res, f r t = .ok (some res) → RemOk res.remaining t) :
    ∀ (rs : List Rule) (cur : Text) (acc vs : List Value) (fin : Text),
      seqGo f rs cur acc = .ok (some (vs, fin)) → RemOk fin cur := by
  intro rs
  induction rs with
  | nil =>
    intro cur acc vs fin h
    simp only [seqGo] at h
    cases h
    exact remOk_refl _
  | cons r rs ih =>
    intro cur acc vs fin h
    rw [seqGo] at h
    split at h
    · simp at h
    · simp at h
    · rename_i ir heq
      exact remOk_trans (ih _ _ _ _ h) (hf r cur ir heq)

theorem repMin_remOk {f : Text → Res}
    (hf : ∀ t res, f t = .ok (some res) → RemOk res.remaining t) :
    ∀ (n : Nat) (cur : Text) (vs : List Value) (fin : Text),
      repMin f n cur = .ok (some (vs, fin)) → RemOk fin cur := by
  intro n
  induction n with
  | zero =>
    intro cur vs fin h
    simp only [repMin] at h
    cases h
    exact remOk_refl _
  | succ n ih =>
    intro cur vs fin h
    rw [repMin] at h
    split at h
    · simp at h
    · simp at h
    · rename_i ir heq
      split at h
      · simp at h
      · simp at h
      · rename_i vs' fin' heq'
        cases h
        exact remOk_trans (remOk_of_strip (ih _ _ _ heq')) (hf cur ir heq)

theorem repExtra_remOk {f : Text → Res}
    (hf : ∀ t res, f t = .ok (some res) → RemOk res.remaining t) :
    ∀ (n : Nat) (cur : Text) (vs : List Value) (fin : Text),
      repExtra f n cur = .ok (vs, fin) → RemOk fin cur := by
  intro n
  induction n with
  | zero =>
    intro cur vs fin h
    simp only [repExtra] at h
    cases h
    exact remOk_refl _
  | succ n ih =>
    intro cur vs fin h
    rw [repExtra] at h
    split at h
    · simp at h
    · cases h
      exact remOk_refl _
    · rename_i ir heq
      split at h
      · simp at h
      · rename_i vs' fin' heq'
        cases h
        exact remOk_trans (remOk_of_strip (ih _ _ _ heq')) (hf cur ir heq)

theorem repUnbounded_remOk {f : Text → Res}
    (hf : ∀ t res, f t = .ok (some res) → RemOk res.remaining t) :
    ∀ (lf : Nat) (cur : Text) (vs : List Value) (fin : Text),
      repUnbounded f lf cur = .ok (vs, fin) → RemOk fin cur := by
  intro lf
  induction lf with
  | zero => intro cur vs fin h; simp [repUnbounded] at h
  | succ lf ih =>
    intro cur vs fin h
    rw [repUnbounded] at h
    split at h
    · cases h
      exact remOk_refl _
    · split at h
      · simp at h
      · cases h
        exact remOk_refl _
      · rename_i ir heq
        split at h
        · cases h
          exact remOk_refl _
        · split at h
          · simp at h
          · rename_i vs' fin' heq'
            cases h
            exact remOk_trans (remOk_of_strip (ih _ _ _ heq')) (hf cur ir heq)

/-- The `remaining`-suffix invariant for every rule variant, amended: on
success the remaining text is a suffix of the text passed in or of its
whitespace-stripped form (hence always a contiguous substring). -/
theorem applyRule_remOk (o : Oracle) (root : Root) :
    ∀ (fuel : Nat) (r : Rule) (t : Text) (res : ParseResult),
      applyRule o root fuel r t = .ok (some res) → RemOk res.remaining t := by
  intro fuel
  induction fuel with
  | zero => intro r t res h; simp [applyRule] at h
  | succ fuel ih =>
    intro r t res h
    match r with
    | .number =>
      simp only [applyRule, parseNumber] at h
      split at h
      · simp at h
      · cases h
        exact remOk_drop t _
    | .str =>
      simp only [applyRule, parseString] at h
      cases h
      exact remOk_strip t
    | .literal v nm =>
      simp only [applyRule, parseLiteral] at h
      split at h
      · cases h
        exact remOk_drop_strip t _
      · simp at h
    | .regexp p nm =>
      simp only [applyRule, parseRegexp] at h
      split at h
      · rename_i m heq
        cases h
        exact remOk_drop_strip t _
      · simp at h
    | .optionalR r1 nm =>
      simp only [applyRule] at h
      split at h
      · simp at h
      · rename_i ir heq
        cases h
        exact ih r1 t ir heq
      · cases h
        exact remOk_refl t
    | .orR rs nm =>
      simp only [applyRule] at h
      exact orGo_remOk (fun r t res hr => ih r t res hr) rs nm t res h
    | .conjoinedR rs nm =>
      simp only [applyRule] at h
      split at h
      · simp at h
      · simp at h
      · rename_i vs fin heq
        cases h
        exact remOk_of_strip
          (seqGo_remOk (fun r t res hr => ih r t res hr) rs (pyStrip t) [] vs fin heq)
    | .me =>
      simp only [applyRule] at h
      split at h
      · rename_i r1
        exact ih r1 t res h
      · rename_i rs
        split at h
        · simp at h
        · simp at h
        · rename_i vs fin heq'
          cases h
          exact seqGo_remOk (fun r t res hr => ih r t res hr) rs t [] vs fin heq'
    | .dependency r1 =>
      simp only [applyRule] at h
      exact ih r1 t res h
    | .minmaxR r1 mn mx nm =>
      simp only [applyRule] at h
      split at h
      · simp at h
      · simp at h
      · rename_i vs cur heq
        have hmin : RemOk cur t :=
          remOk_of_strip
            (repMin_remOk (fun u res hr => ih r1 u res hr) mn (pyStrip t) vs cur heq)
        split at h
        · split at h
          · simp at h
          · rename_i vs2 fin heq'
            cases h
            exact remOk_trans
              (repUnbounded_remOk (fun u res hr => ih r1 u res hr) _ cur vs2 fin heq') hmin
        · split at h
          · simp at h
          · rename_i vs2 fin heq'
            cases h
            exact remOk_trans
              (repExtra_remOk (fun u res hr => ih r1 u res hr) _ cur vs2 fin heq') hmin

/-! ### Helper lemmas about the repetition loops -/

theorem repMin_length {ε : Type} {f : Text → Except ε (Option ParseResult)} :
    ∀ (n : Nat) (cur : Text) (vs : List Value) (fin : Text),
      repMin f n cur = .ok (some (vs, fin)) → vs.length = n := by
  intro n
  induction n with
  | zero => intro cur vs fin h; simp only [repMin] at h; cases h; rfl
  | succ n ih =>
    intro cur vs fin h
    rw [repMin] at h
    split at h
    · simp at h
    · simp at h
    · rename_i ir heq
      split at h
      · simp at h
      · simp at h
      · rename_i vs1 fin1 heq1
        cases h
        simp [ih _ _ _ heq1]

theorem repExtra_length {ε : Type} {f : Text → Except ε (Option ParseResult)} :
    ∀ (n : Nat) (cur : Text) (vs : List Value) (fin : Text),
      repExtra f n cur = .ok (vs, fin) → vs.length ≤ n := by
  intro n
  induction n with
  | zero => intro cur vs fin h; simp only [repExtra] at h; cases h; simp
  | succ n ih =>
    intro cur vs fin h
    rw [repExtra] at h
    split at h
    · simp at h
    · cases h; simp
    · rename_i ir heq
      split at h
      · simp at h
      · rename_i vs1 fin1 heq1
        cases h
        have := ih _ _ _ heq1
        simp
        omega

theorem repUnbounded_run {f : Text → Res} :
    ∀ (lf : Nat) (cur : Text) (vs : List Value) (fin : Text),
      repUnbounded f lf cur = .ok (vs, fin) → UnboundedRun f cur vs fin := by
  intro lf
  induction lf with
  | zero => intro cur vs fin h; simp [repUnbounded] at h
  | succ lf ih =>
    intro cur vs fin h
    rw [repUnbounded] at h
    split at h
    · rename_i hcur
      cases h
      obtain rfl : cur = [] := by simpa using hcur
      exact .empty
    · rename_i hcur
      have hne : cur ≠ [] := by simpa using hcur
      split at h
      · simp at h
      · rename_i heq
        cases h
        exact .fail cur hne heq
      · rename_i ir heq
        split at h
        · rename_i hst
          cases h
          exact .stagnate cur ir hne heq hst
        · rename_i hst
          split at h
          · simp at h
          · rename_i vs1 fin1 heq1
            cases h
            exact .step cur ir vs1 fin hne heq hst (ih _ _ _ heq1)

/-- First-success behaviour of the `_parse_or` loop. -/
theorem orGo_first {ε : Type} {f : Rule → Text → Except ε (Option ParseResult)}
    (nm : Option String) (t : Text) :
    ∀ (pre : List Rule) (post : List Rule) (A : Rule) (res : ParseResult),
      (∀ r ∈ pre, f r t = .ok none) → f A t = .ok (some res) →
      orGo f nm (pre ++ A :: post) t =
        .ok (some ⟨mkNode "Or" nm (.vlist [res.value]), res.remaining⟩) := by
  intro pre
  induction pre with
  | nil =>
    intro post A res hpre hA
    simp [orGo, hA]
  | cons r pre ih =>
    intro post A res hpre hA
    have hr : f r t = .ok none := hpre r (by simp)
    rw [List.cons_append, orGo, hr]
    exact ih post A res (fun r1 hmem => hpre r1 (by simp [hmem])) hA

/-- All-fail behaviour of the `_parse_or` loop. -/
theorem orGo_allFail {ε : Type} {f : Rule → Text → Except ε (Option ParseResult)}
    (nm : Option String) (t : Text) :
    ∀ rs : List Rule, (∀ r ∈ rs, f r t = .ok none) → orGo f nm rs t = .ok none := by
  intro rs
  induction rs with
  | nil => intro _; simp [orGo]
  | cons r rs ih =>
    intro hall
    have hr : f r t = .ok none := hall r (by simp)
    rw [orGo, hr]
    exact ih (fun r1 hmem => hall r1 (by simp [hmem]))

/-! ### The claims -/

/-- C1: the claim that interpreting a Grammar and running the routines
emitted by `generate` produce structurally identical ASTs for every Grammar
is right as intent but violated by the code: `generate_rule_methods`
(generator.py lines 104-130) emits methods only for `Literal`, `RegExp`,
`Optional`, `Or`, `Conjoined` and `GenericMinmax`, so for a grammar whose
root rule is the built-in `Number` the generated parser calls a
`_parse_<id>` method that was never emitted and crashes with
`AttributeError`, while the interpreter parses `"7"` successfully.  This
theorem evaluates both sides at that failing input. -/
theorem claim_C1 :
    parse (fun _ _ => none) 2 ⟨"G", .single .number, [], none⟩ "7".toList =
      .ok (.success (.vnode "G" "G" (.vlist [.vnode "Number" "Number" (.vint 7)]))) ∧
    genParse (fun _ _ => none) 2 ⟨"G", .single .number, [], none⟩ "7".toList =
      .error .missingRoutine :=
  ⟨rfl, rfl⟩

/-- C3 (counterexample): with the permissive configuration
`min_count = 2 > max_count = 1` the interpreter performs the two forced
applications and succeeds with two captured values, so "when it succeeds it
never performs more than max applications of r" is false as stated. -/
theorem claim_C3_counterexample :
    applyRule (fun _ _ => none) (.single .number) 3
        (.minmaxR (.literal "a".toList none) 2 1 none) "aaa".toList =
      .ok (some ⟨.vnode "Minmax" "Minmax"
        (.vlist [.vnode "Literal" "Literal" (.vstr "a".toList),
                 .vnode "Literal" "Literal" (.vstr "a".toList)]), "a".toList⟩) ∧
    ¬ ([Value.vnode "Literal" "Literal" (.vstr "a".toList),
        .vnode "Literal" "Literal" (.vstr "a".toList)].length ≤ 1) :=
  ⟨rfl, by simp⟩

/-- C3 (amended): for `max_count ≠ 0`, `Repetition(r, min, max)` fails
exactly when the greedy forced-minimum phase cannot complete `min`
applications; on success the number of captured applications is at least
`min` and at most `max min max` — at most `max` when `min ≤ max`, and
exactly the `min` forced applications when `min > max` (the extra loop runs
`range(max - min)`, which is empty, so the configuration is accepted but
can exceed `max`). -/
theorem claim_C3 (o : Oracle) (root : Root) (fuel : Nat) (r : Rule)
    (mn mx : Nat) (nm : Option String) (t : Text) (x : Option ParseResult)
    (hmx : mx ≠ 0)
    (h : applyRule o root (fuel+1) (.minmaxR r mn mx nm) t = .ok x) :
    (x = none ↔ repMin (fun u => applyRule o root fuel r u) mn (pyStrip t) = .ok none) ∧
    (∀ res, x = some res → ∃ vs fin,
      res = ⟨mkNode "Minmax" nm (.vlist vs), fin⟩ ∧
      mn ≤ vs.length ∧ vs.length ≤ max mn mx) := by
  simp only [applyRule] at h
  split at h
  · simp at h
  · rename_i heqmin
    cases h
    constructor
    · exact ⟨fun _ => heqmin, fun _ => rfl⟩
    · intro res hres; simp at hres
  · rename_i vs cur heqmin
    split at h
    · rename_i hz
      exact absurd (by simpa using hz) hmx
    · split at h
      · simp at h
      · rename_i vs2 fin heq2
        cases h
        constructor
        · constructor
          · intro hx; simp at hx
          · intro hmin; exact absurd (heqmin.symm.trans hmin) (by simp)
        · intro res hres
          cases hres
          refine ⟨vs ++ vs2, fin, rfl, ?_, ?_⟩
          · have h1 := repMin_length mn (pyStrip t) vs cur heqmin
            simp [h1]
          · have h1 := repMin_length mn (pyStrip t) vs cur heqmin
            have h2 := repExtra_length (mx - mn) cur vs2 fin heq2
            simp only [List.length_append]
            omega

/-- C3 (witness): `Repetition(Literal "a", 1, 2)` on `"aa"` succeeds with
two captured values. -/
theorem claim_C3_witness :
    ((some ⟨mkNode "Minmax" none
        (.vlist [Value.vnode "Literal" "Literal" (.vstr "a".toList),
                 .vnode "Literal" "Literal" (.vstr "a".toList)]), ([] : Text)⟩ :
        Option ParseResult) = none ↔
      repMin (fun u => applyRule (fun _ _ => none) (.single .number) 2
          (.literal "a".toList none) u) 1 (pyStrip "aa".toList) = .ok none) ∧
    (∀ res, (some ⟨mkNode "Minmax" none
        (.vlist [Value.vnode "Literal" "Literal" (.vstr "a".toList),
                 .vnode "Literal" "Literal" (.vstr "a".toList)]), ([] : Text)⟩ :
        Option ParseResult) = some res → ∃ vs fin,
      res = ⟨mkNode "Minmax" none (.vlist vs), fin⟩ ∧
      1 ≤ vs.length ∧ vs.length ≤ max 1 2) :=
  claim_C3 (fun _ _ => none) (.single .number) 2 (.literal "a".toList none)
    1 2 none "aa".toList _ (by simp) rfl

/-- C4 (counterexample): the unbounded loop has a third stop condition the
claim omits — `while current_text:` exits as soon as the remaining text is
empty.  On the empty input, `Repetition(Presence(Literal ","), 0, 0)`
performs zero loop applications and captures no value, although an
application of the inner rule at the stopping text succeeds (Presence never
fails), so the loop did not stop because "an application fails" nor because
"an application succeeds but leaves the text unchanged". -/
theorem claim_C4_counterexample :
    applyRule (fun _ _ => none) (.single .number) 3
        (.minmaxR (.optionalR (.literal ",".toList none) none) 0 0 none) [] =
      .ok (some ⟨.vnode "Minmax" "Minmax" (.vlist []), []⟩) ∧
    applyRule (fun _ _ => none) (.single .number) 2
        (.optionalR (.literal ",".toList none) none) [] =
      .ok (some ⟨.vnode "Optional" "Optional" (.vlist [.vnone]), []⟩) :=
  ⟨rfl, rfl⟩

/-- C4 (amended): for `max_count = 0`, after the forced `min` applications
the interpreter keeps applying `r` until the remaining text is empty, an
application fails, or an application succeeds but leaves the stripped
remainder unchanged (appending that last value), and stops exactly in
those three cases (`UnboundedRun`). -/
theorem claim_C4 (o : Oracle) (root : Root) (fuel : Nat) (r : Rule)
    (mn : Nat) (nm : Option String) (t : Text) (x : Option ParseResult)
    (h : applyRule o root (fuel+1) (.minmaxR r mn 0 nm) t = .ok x) :
    ∀ res, x = some res → ∃ vs0 cur0 vs2 fin,
      repMin (fun u => applyRule o root fuel r u) mn (pyStrip t) =
        .ok (some (vs0, cur0)) ∧
      UnboundedRun (fun u => applyRule o root fuel r u) cur0 vs2 fin ∧
      res = ⟨mkNode "Minmax" nm (.vlist (vs0 ++ vs2)), fin⟩ := by
  simp only [applyRule] at h
  split at h
  · simp at h
  · rename_i heqmin
    cases h
    intro res hres
    simp at hres
  · rename_i vs cur heqmin
    split at h
    · split at h
      · simp at h
      · rename_i vs2 fin heq2
        cases h
        intro res hres
        cases hres
        exact ⟨vs, cur, vs2, fin, heqmin, repUnbounded_run _ _ _ _ heq2, rfl⟩
    · rename_i hz
      simp at hz

/-- C4 (witness): `Repetition(Literal "a", 0, 0)` on `"a a"` captures two
values and stops on empty text. -/
theorem claim_C4_witness :
    ∃ vs0 cur0 vs2 fin,
      repMin (fun u => applyRule (fun _ _ => none) (.single .number) 2
          (.literal "a".toList none) u) 0 (pyStrip "a a".toList) =
        .ok (some (vs0, cur0)) ∧
      UnboundedRun (fun u => applyRule (fun _ _ => none) (.single .number) 2
          (.literal "a".toList none) u) cur0 vs2 fin ∧
      (⟨Value.vnode "Minmax" "Minmax"
          (.vlist [Value.vnode "Literal" "Literal" (.vstr "a".toList),
                   .vnode "Literal" "Literal" (.vstr "a".toList)]), ([] : Text)⟩ :
        ParseResult) = ⟨mkNode "Minmax" none (.vlist (vs0 ++ vs2)), fin⟩ :=
  claim_C4 (fun _ _ => none) (.single .number) 2 (.literal "a".toList none)
    0 none "a a".toList
    (some ⟨Value.vnode "Minmax" "Minmax"
      (.vlist [Value.vnode "Literal" "Literal" (.vstr "a".toList),
               .vnode "Literal" "Literal" (.vstr "a".toList)]), ([] : Text)⟩) rfl
    ⟨Value.vnode "Minmax" "Minmax"
      (.vlist [Value.vnode "Literal" "Literal" (.vstr "a".toList),
               .vnode "Literal" "Literal" (.vstr "a".toList)]), ([] : Text)⟩ rfl

/-- C5: ordered choice — the interpreter tries the alternatives of an
`Or` in declared order against the same starting text; if every rule of a
prefix fails and the next alternative succeeds, the result is that
alternative's value wrapped in a single-element container tagged `Or`
(never a later alternative); if every alternative fails the whole
alternation fails. -/
theorem claim_C5 :
    (∀ (o : Oracle) (root : Root) (fuel : Nat) (pre post : List Rule) (A : Rule)
        (nm : Option String) (t : Text) (res : ParseResult),
      (∀ r ∈ pre, applyRule o root fuel r t = .ok none) →
      applyRule o root fuel A t = .ok (some res) →
      applyRule o root (fuel+1) (.orR (pre ++ A :: post) nm) t =
        .ok (some ⟨mkNode "Or" nm (.vlist [res.value]), res.remaining⟩)) ∧
    (∀ (o : Oracle) (root : Root) (fuel : Nat) (rs : List Rule)
        (nm : Option String) (t : Text),
      (∀ r ∈ rs, applyRule o root fuel r t = .ok none) →
      applyRule o root (fuel+1) (.orR rs nm) t = .ok none) := by
  constructor
  · intro o root fuel pre post A nm t res hpre hA
    simp only [applyRule]
    exact orGo_first nm t pre post A res hpre hA
  · intro o root fuel rs nm t hall
    simp only [applyRule]
    exact orGo_allFail nm t rs hall

/-- C5 (witness): `Alternation(Literal "yes", Literal "no")` on `"no"`
yields the second alternative wrapped under an `Or` node. -/
theorem claim_C5_witness :
    applyRule (fun _ _ => none) (.single .number) 2
        (.orR [.literal "yes".toList none, .literal "no".toList none] none) "no".toList =
      .ok (some ⟨mkNode "Or" none
        (.vlist [Value.vnode "Literal" "Literal" (.vstr "no".toList)]), []⟩) :=
  claim_C5.1 (fun _ _ => none) (.single .number) 1 [.literal "yes".toList none] []
    (.literal "no".toList none) none "no".toList
    ⟨.vnode "Literal" "Literal" (.vstr "no".toList), []⟩
    (by intro r hr; rw [List.mem_singleton] at hr; subst hr; rfl) rfl

/-- C6: `Presence(r)` never fails — when `r` matches, its value is wrapped
as a single-element present container with `r`'s remaining text; when `r`
fails, the result is the absent container `[None]` and the remaining text
is exactly the text passed in (zero characters consumed). -/
theorem claim_C6 (o : Oracle) (root : Root) (fuel : Nat) (r : Rule)
    (nm : Option String) (t : Text) (x : Option ParseResult)
    (h : applyRule o root (fuel+1) (.optionalR r nm) t = .ok x) :
    ∃ res, x = some res ∧
      ((∃ ir, applyRule o root fuel r t = .ok (some ir) ∧
          res = ⟨mkNode "Optional" nm (.vlist [ir.value]), ir.remaining⟩) ∨
        (applyRule o root fuel r t = .ok none ∧
          res = ⟨mkNode "Optional" nm (.vlist [.vnone]), t⟩)) := by
  simp only [applyRule] at h
  split at h
  · simp at h
  · rename_i ir heq
    cases h
    exact ⟨_, rfl, .inl ⟨ir, heq, rfl⟩⟩
  · rename_i heq
    cases h
    exact ⟨_, rfl, .inr ⟨heq, rfl⟩⟩

/-- C6 (witness): `Presence(Literal "a")` on `"b"` succeeds with the absent
container and consumes nothing. -/
theorem claim_C6_witness :
    ∃ res, (some ⟨Value.vnode "Optional" "Optional" (.vlist [.vnone]), "b".toList⟩ :
        Option ParseResult) = some res ∧
      ((∃ ir, applyRule (fun _ _ => none) (.single .number) 1
            (.literal "a".toList none) "b".toList = .ok (some ir) ∧
          res = ⟨mkNode "Optional" none (.vlist [ir.value]), ir.remaining⟩) ∨
        (applyRule (fun _ _ => none) (.single .number) 1
            (.literal "a".toList none) "b".toList = .ok none ∧
          res = ⟨mkNode "Optional" none (.vlist [.vnone]), "b".toList⟩)) :=
  claim_C6 (fun _ _ => none) (.single .number) 1 (.literal "a".toList none)
    none "b".toList _ rfl

/-- C7 (counterexample): the remaining text is not always a suffix of the
text passed to the consuming call — `_parse_literal` strips the text before
matching, so on `"a b "` (note the trailing space) matching `Literal "a"`
returns remaining `" b"`, which is not a suffix of `"a b "`. -/
theorem claim_C7_counterexample :
    applyRule (fun _ _ => none) (.single .number) 2
        (.literal "a".toList none) "a b ".toList =
      .ok (some ⟨.vnode "Literal" "Literal" (.vstr "a".toList), " b".toList⟩) ∧
    ¬ (" b".toList <:+ "a b ".toList) :=
  ⟨rfl, by decide⟩

/-- C7 (amended): whenever a rule application succeeds, the remaining text
is a suffix of the text passed to the consuming call or of that text
stripped of leading and trailing whitespace (hence always a contiguous
substring of it, though not necessarily a suffix). -/
theorem claim_C7 (o : Oracle) (root : Root) (fuel : Nat) (r : Rule) (t : Text)
    (res : ParseResult) (h : applyRule o root fuel r t = .ok (some res)) :
    res.remaining <:+ t ∨ res.remaining <:+ pyStrip t :=
  applyRule_remOk o root fuel r t res h

/-- C7 (witness): the amended invariant at the counterexample input — the
remainder `" b"` is a suffix of the stripped text `"a b"`. -/
theorem claim_C7_witness :
    " b".toList <:+ "a b ".toList ∨ " b".toList <:+ pyStrip "a b ".toList :=
  claim_C7 (fun _ _ => none) (.single .number) 2 (.literal "a".toList none)
    "a b ".toList ⟨.vnode "Literal" "Literal" (.vstr "a".toList), " b".toList⟩ rfl

/-- C9: `ASTNode.__init__` stores `value or []`, so every falsy primitive
match value — the integer `0` produced by `Number` matching `"0"`, or an
empty string — is replaced by the empty list; in particular parsing `"0"`
with the `Number` rule yields a node whose stored value is `[]`, not `0`. -/
theorem claim_C9 :
    (∀ (ty : String) (custom : Option String),
      mkNode ty custom (.vint 0) = .vnode ty (custom.getD ty) (.vlist []) ∧
      mkNode ty custom (.vstr []) = .vnode ty (custom.getD ty) (.vlist [])) ∧
    (∀ (o : Oracle) (root : Root) (fuel : Nat),
      applyRule o root (fuel+1) .number "0".toList =
        .ok (some ⟨.vnode "Number" "Number" (.vlist []), []⟩)) :=
  ⟨fun ty custom => ⟨rfl, rfl⟩, fun o root fuel => rfl⟩

/-- C10 (counterexample): the built-in `String` rule always succeeds
matching the empty string, but the node's stored value is not the empty
string — `ASTNode.__init__`'s falsy coercion replaces `""` by `[]`. -/
theorem claim_C10_counterexample :
    applyRule (fun _ _ => none) (.single .number) 1 .str "abc".toList =
      .ok (some ⟨.vnode "String" "String" (.vlist []), "abc".toList⟩) ∧
    (Value.vnode "String" "String" (.vlist []) ≠ .vnode "String" "String" (.vstr [])) :=
  ⟨rfl, by simp⟩

/-- C10 (amended): for every input the built-in quoted-string rule
succeeds: the lazy pattern `(.*?)` matches the empty string at position 0,
so the rule consumes nothing beyond the whitespace strip, never requires
quote characters, never returns a no-match result, and its node stores the
falsy-coerced empty value `[]`. -/
theorem claim_C10 (o : Oracle) (root : Root) (fuel : Nat) (t : Text) :
    applyRule o root (fuel+1) .str t =
      .ok (some ⟨.vnode "String" "String" (.vlist []), pyStrip t⟩) := rfl

/-- C2: top-level `parse` fails exactly when the root rule does not match
the cleaned input at all, or matches but leaves a remainder that is
non-whitespace; the not-fully-consumed failure carries the offending
remaining text, the no-match failure carries the cleaned input, and on
success the wrapped AST value is returned. -/
theorem claim_C2 (o : Oracle) (fuel : Nat) (g : Grammar) (t : Text)
    (out : ParseOutcome) (h : parse o fuel g t = .ok out) :
    ((∀ v, out ≠ .success v) ↔
      (parseWithRules o fuel g.root (cleanText g.ignore t) = .ok none ∨
        ∃ res, parseWithRules o fuel g.root (cleanText g.ignore t) = .ok (some res) ∧
          pyStrip res.remaining ≠ [])) ∧
    (parseWithRules o fuel g.root (cleanText g.ignore t) = .ok none →
      out = .noMatch (cleanText g.ignore t)) ∧
    (∀ res, parseWithRules o fuel g.root (cleanText g.ignore t) = .ok (some res) →
      pyStrip res.remaining ≠ [] → out = .notConsumed res.remaining) ∧
    (∀ res, parseWithRules o fuel g.root (cleanText g.ignore t) = .ok (some res) →
      pyStrip res.remaining = [] →
      out = .success (finishValue g (resultValues res.value))) := by
  rw [parse] at h
  split at h
  · simp at h
  · rename_i heq
    cases h
    refine ⟨?_, fun _ => rfl, ?_, ?_⟩
    · constructor
      · intro _
        exact .inl heq
      · intro _ v hv
        cases hv
    · intro res hres
      exact absurd (heq.symm.trans hres) (by simp)
    · intro res hres
      exact absurd (heq.symm.trans hres) (by simp)
  · rename_i res heq
    split at h
    · rename_i hemp
      have hemp' : pyStrip res.remaining = [] := by simpa using hemp
      cases h
      refine ⟨?_, ?_, ?_, ?_⟩
      · apply iff_of_false
        · intro hall
          exact hall _ rfl
        · rintro (hnone | ⟨res1, hres1, hne1⟩)
          · exact absurd (heq.symm.trans hnone) (by simp)
          · have : res = res1 := by simpa using heq.symm.trans hres1
            subst this
            exact hne1 hemp'
      · intro hnone
        exact absurd (heq.symm.trans hnone) (by simp)
      · intro res1 hres1 hne1
        have : res = res1 := by simpa using heq.symm.trans hres1
        subst this
        exact absurd hemp' hne1
      · intro res1 hres1 hz1
        have : res = res1 := by simpa using heq.symm.trans hres1
        subst this
        rfl
    · rename_i hemp
      have hemp' : pyStrip res.remaining ≠ [] := by simpa using hemp
      cases h
      refine ⟨?_, ?_, ?_, ?_⟩
      · apply iff_of_true
        · intro v hv
          cases hv
        · exact .inr ⟨res, heq, hemp'⟩
      · intro hnone
        exact absurd (heq.symm.trans hnone) (by simp)
      · intro res1 hres1 hne1
        have : res = res1 := by simpa using heq.symm.trans hres1
        subst this
        rfl
      · intro res1 hres1 hz1
        have : res = res1 := by simpa using heq.symm.trans hres1
        subst this
        exact absurd hz1 hemp'

/-- C2 (witness): the grammar with root rule `Number` on input `"7"`
consumes everything and succeeds with the wrapped node. -/
theorem claim_C2_witness :
    ((∀ v, (ParseOutcome.success
        (.vnode "G" "G" (.vlist [.vnode "Number" "Number" (.vint 7)]))) ≠ .success v) ↔
      (parseWithRules (fun _ _ => none) 2 (Root.single .number)
          (cleanText [] "7".toList) = .ok none ∨
        ∃ res, parseWithRules (fun _ _ => none) 2 (Root.single .number)
            (cleanText [] "7".toList) = .ok (some res) ∧
          pyStrip res.remaining ≠ [])) ∧
    (parseWithRules (fun _ _ => none) 2 (Root.single .number)
        (cleanText [] "7".toList) = .ok none →
      (ParseOutcome.success
        (.vnode "G" "G" (.vlist [.vnode "Number" "Number" (.vint 7)]))) =
        .noMatch (cleanText [] "7".toList)) ∧
    (∀ res, parseWithRules (fun _ _ => none) 2 (Root.single .number)
        (cleanText [] "7".toList) = .ok (some res) →
      pyStrip res.remaining ≠ [] →
      (ParseOutcome.success
        (.vnode "G" "G" (.vlist [.vnode "Number" "Number" (.vint 7)]))) =
        .notConsumed res.remaining) ∧
    (∀ res, parseWithRules (fun _ _ => none) 2 (Root.single .number)
        (cleanText [] "7".toList) = .ok (some res) →
      pyStrip res.remaining = [] →
      (ParseOutcome.success
        (.vnode "G" "G" (.vlist [.vnode "Number" "Number" (.vint 7)]))) =
        .success (finishValue ⟨"G", .single .number, [], none⟩
          (resultValues res.value))) :=
  claim_C2 (fun _ _ => none) 2 ⟨"G", .single .number, [], none⟩ "7".toList
    (.success (.vnode "G" "G" (.vlist [.vnode "Number" "Number" (.vint 7)]))) rfl

/-! ### Lemmas for the traversal claim (C8) -/

theorem lookupStore_pair {store : Store} {nid : Nat} {e : Entry}
    (h : lookupStore store nid = some e) :
    ∃ pr, pr ∈ store ∧ pr.1 = nid ∧ pr.2 = e := by
  obtain ⟨pr, hfind, h2⟩ : ∃ pr, store.find? (fun x => x.1 == nid) = some pr ∧ pr.2 = e := by
    simpa [lookupStore, Option.map_eq_some'] using h
  exact ⟨pr, List.mem_of_find?_eq_some hfind,
    by simpa using List.find?_some hfind, h2⟩

theorem lookupStore_mem_keys {store : Store} {nid : Nat} {e : Entry}
    (h : lookupStore store nid = some e) : nid ∈ storeKeys store := by
  obtain ⟨pr, hmem, h1, -⟩ := lookupStore_pair h
  rw [storeKeys, List.mem_dedup]
  exact h1 ▸ List.mem_map_of_mem Prod.fst hmem

theorem canonicalRid_inj {store : Store} {r1 r2 : RuleId}
    (h1 : CanonicalRid store r1) (h2 : CanonicalRid store r2)
    (h : r1.objId = r2.objId) : r1 = r2 := by
  obtain ⟨e1, he1, hr1⟩ := h1
  obtain ⟨e2, he2, hr2⟩ := h2
  rw [h, he2] at he1
  obtain rfl : e2 = e1 := by simpa using he1
  rw [hr1, hr2, h]

theorem usedOk_length_le {store : Store} {used : List RuleId}
    (h : UsedOk store used) : used.length ≤ (storeKeys store).length := by
  have hmapnd : (used.map RuleId.objId).Nodup :=
    List.Nodup.map_on
      (fun x hx y hy hxy => canonicalRid_inj (h.2 x hx) (h.2 y hy) hxy) h.1
  have hsub : used.map RuleId.objId ⊆ storeKeys store := by
    intro x hx
    obtain ⟨rid, hmem, rfl⟩ := List.mem_map.mp hx
    obtain ⟨e, he, -⟩ := h.2 rid hmem
    exact lookupStore_mem_keys he
  have hle := (hmapnd.subperm hsub).length_le
  simpa using hle

theorem closedStore_child {store : Store} (hc : ClosedStore store = true)
    {nid : Nat} {e : Entry} (hl : lookupStore store nid = some e)
    {c : Nat} (hmem : c ∈ shapeChildren e.shape) :
    ∃ e1, lookupStore store c = some e1 := by
  obtain ⟨pr, hprmem, -, h2⟩ := lookupStore_pair hl
  rw [ClosedStore] at hc
  have hall : ((shapeChildren pr.2.shape).all
      (fun c1 => (lookupStore store c1).isSome)) = true :=
    List.all_eq_true.mp hc pr hprmem
  rw [h2] at hall
  have := List.all_eq_true.mp hall c hmem
  exact Option.isSome_iff_exists.mp this

theorem procChildren_spec (store : Store) (fuel : Nat)
    (ih : ∀ (used : List RuleId) (nid : Nat) (e : Entry),
      UsedOk store used → lookupStore store nid = some e →
      (storeKeys store).length + 1 ≤ fuel + used.length →
      ∃ d used2, processRule store fuel used nid = .ok (d, used2) ∧
        ProcInv store used used2) :
    ∀ (cs : List Nat) (used : List RuleId),
      (∀ c ∈ cs, ∃ ec, lookupStore store c = some ec) →
      UsedOk store used →
      (storeKeys store).length + 1 ≤ fuel + used.length →
      ∃ ds used2,
        procChildren (fun u n => processRule store fuel u n) cs used = .ok (ds, used2) ∧
        ProcInv store used used2 := by
  intro cs
  induction cs with
  | nil =>
    intro used hcs hused hbound
    exact ⟨[], used, rfl, hused.1, hused, fun x hx => hx⟩
  | cons c cs ihc =>
    intro used hcs hused hbound
    obtain ⟨ec, hec⟩ := hcs c (by simp)
    obtain ⟨d, used1, hrun1, hinv1⟩ := ih used c ec hused hec hbound
    have hused1 : UsedOk store used1 := hinv1.2.1
    have hlen1 : used.length ≤ used1.length :=
      (hused.1.subperm (fun x hx => hinv1.2.2 x hx)).length_le
    obtain ⟨ds, used2, hrun2, hinv2⟩ :=
      ihc used1 (fun c1 hc1 => hcs c1 (by simp [hc1])) hused1 (by omega)
    refine ⟨d :: ds, used2, ?_, hinv2.1, hinv2.2.1,
      fun x hx => hinv2.2.2 x (hinv1.2.2 x hx)⟩
    have hstep : procChildren (fun u n => processRule store fuel u n) (c :: cs) used =
        match processRule store fuel used c with
        | .error e1 => .error e1
        | .ok (d1, u1) =>
          match procChildren (fun u n => processRule store fuel u n) cs u1 with
          | .error e1 => .error e1
          | .ok (ds1, u2) => .ok (d1 :: ds1, u2) := rfl
    rw [hstep, hrun1]
    show (match procChildren (fun u n => processRule store fuel u n) cs used1 with
      | Except.error e1 => (Except.error e1 : Except Unit (List RuleDef × List RuleId))
      | Except.ok (ds1, u2) => Except.ok (d :: ds1, u2)) = Except.ok (d :: ds, used2)
    rw [hrun2]

/-- C8: for every closed heap of Rule objects (sharing and even cycles
allowed; a graph cyclic only through `SelfReference` is acyclic here since
`Me` has no children) and fuel at least the number of distinct objects not
yet registered, the generator's traversal `process_rule` terminates with
finite output; each instance's stable identifier is its variant-or-custom
name plus its object identity (`ridOf`), registered on first visit
(`topRid d = ridOf e nid`, a full definition, id added to `used_rules`);
the threaded `used_rules` set stays duplicate-free, so at most one routine
is planned per distinct instance; and every subsequent visit to the same
instance returns only a `rule_ref`. -/
theorem claim_C8 (store : Store) (hclosed : ClosedStore store = true) :
    ∀ (fuel : Nat) (used : List RuleId) (nid : Nat) (e : Entry),
      UsedOk store used → lookupStore store nid = some e →
      (storeKeys store).length + 1 ≤ fuel + used.length →
      ∃ d used2, processRule store fuel used nid = .ok (d, used2) ∧
        ProcInv store used used2 ∧
        (ridOf e nid ∈ used → d = .ref (ridOf e nid) ∧ used2 = used) ∧
        (ridOf e nid ∉ used →
          topRid d = ridOf e nid ∧ isRef d = false ∧ ridOf e nid ∈ used2) := by
  intro fuel
  induction fuel with
  | zero =>
    intro used nid e hused hlook hbound
    have := usedOk_length_le hused
    omega
  | succ fuel ih =>
    intro used nid e hused hlook hbound
    have ihWeak : ∀ (used1 : List RuleId) (nid1 : Nat) (e1 : Entry),
        UsedOk store used1 → lookupStore store nid1 = some e1 →
        (storeKeys store).length + 1 ≤ fuel + used1.length →
        ∃ d used2, processRule store fuel used1 nid1 = .ok (d, used2) ∧
          ProcInv store used1 used2 := by
      intro u n e1 h1 h2 h3
      obtain ⟨d, u2, hr, hinv, -, -⟩ := ih u n e1 h1 h2 h3
      exact ⟨d, u2, hr, hinv⟩
    by_cases hin : ridOf e nid ∈ used
    · refine ⟨.ref (ridOf e nid), used, ?_, ⟨hused.1, hused, fun x hx => hx⟩,
        fun _ => ⟨rfl, rfl⟩, fun hno => absurd hin hno⟩
      simp only [processRule, hlook]
      rw [if_pos hin]
    · have hcanon : CanonicalRid store (ridOf e nid) := ⟨e, hlook, rfl⟩
      have hu1 : UsedOk store (ridOf e nid :: used) := by
        refine ⟨List.nodup_cons.mpr ⟨hin, hused.1⟩, ?_⟩
        intro x hx
        rcases List.mem_cons.mp hx with rfl | hxm
        · exact hcanon
        · exact hused.2 x hxm
      have hb1 : (storeKeys store).length + 1 ≤ fuel + (ridOf e nid :: used).length := by
        simp only [List.length_cons]; omega
      cases hsh : e.shape with
      | number =>
        refine ⟨.defLeaf (ridOf e nid) "Number", ridOf e nid :: used, ?_,
          ⟨hu1.1, hu1, fun x hx => List.mem_cons_of_mem _ hx⟩,
          fun hmem => absurd hmem hin,
          fun _ => ⟨rfl, rfl, List.mem_cons_self _ _⟩⟩
        simp only [processRule, hlook]
        rw [if_neg hin, hsh]
      | str =>
        refine ⟨.defLeaf (ridOf e nid) "String", ridOf e nid :: used, ?_,
          ⟨hu1.1, hu1, fun x hx => List.mem_cons_of_mem _ hx⟩,
          fun hmem => absurd hmem hin,
          fun _ => ⟨rfl, rfl, List.mem_cons_self _ _⟩⟩
        simp only [processRule, hlook]
        rw [if_neg hin, hsh]
      | me =>
        refine ⟨.defLeaf (ridOf e nid) "Me", ridOf e nid :: used, ?_,
          ⟨hu1.1, hu1, fun x hx => List.mem_cons_of_mem _ hx⟩,
          fun hmem => absurd hmem hin,
          fun _ => ⟨rfl, rfl, List.mem_cons_self _ _⟩⟩
        simp only [processRule, hlook]
        rw [if_neg hin, hsh]
      | dependencyS c =>
        refine ⟨.defLeaf (ridOf e nid) "Dependency", ridOf e nid :: used, ?_,
          ⟨hu1.1, hu1, fun x hx => List.mem_cons_of_mem _ hx⟩,
          fun hmem => absurd hmem hin,
          fun _ => ⟨rfl, rfl, List.mem_cons_self _ _⟩⟩
        simp only [processRule, hlook]
        rw [if_neg hin, hsh]
      | literal v =>
        refine ⟨.defLiteral (ridOf e nid) v, ridOf e nid :: used, ?_,
          ⟨hu1.1, hu1, fun x hx => List.mem_cons_of_mem _ hx⟩,
          fun hmem => absurd hmem hin,
          fun _ => ⟨rfl, rfl, List.mem_cons_self _ _⟩⟩
        simp only [processRule, hlook]
        rw [if_neg hin, hsh]
      | regexp p =>
        refine ⟨.defRegexp (ridOf e nid) p, ridOf e nid :: used, ?_,
          ⟨hu1.1, hu1, fun x hx => List.mem_cons_of_mem _ hx⟩,
          fun hmem => absurd hmem hin,
          fun _ => ⟨rfl, rfl, List.mem_cons_self _ _⟩⟩
        simp only [processRule, hlook]
        rw [if_neg hin, hsh]
      | optionalS c =>
        obtain ⟨ec, hec⟩ :=
          closedStore_child hclosed hlook (by rw [hsh]; exact List.mem_singleton_self c)
        obtain ⟨d, used2, hrun, hinv⟩ := ihWeak (ridOf e nid :: used) c ec hu1 hec hb1
        refine ⟨.defOptional (ridOf e nid) d, used2, ?_,
          ⟨hinv.1, hinv.2.1, fun x hx => hinv.2.2 x (List.mem_cons_of_mem _ hx)⟩,
          fun hmem => absurd hmem hin,
          fun _ => ⟨rfl, rfl, hinv.2.2 _ (List.mem_cons_self _ _)⟩⟩
        simp only [processRule, hlook]
        rw [if_neg hin, hsh]
        show (match processRule store fuel (ridOf e nid :: used) c with
          | Except.error e1 => (Except.error e1 : Except Unit (RuleDef × List RuleId))
          | Except.ok (d1, u2) => Except.ok (.defOptional (ridOf e nid) d1, u2)) =
          Except.ok (.defOptional (ridOf e nid) d, used2)
        rw [hrun]
      | minmaxS c mn mx =>
        obtain ⟨ec, hec⟩ :=
          closedStore_child hclosed hlook (by rw [hsh]; exact List.mem_singleton_self c)
        obtain ⟨d, used2, hrun, hinv⟩ := ihWeak (ridOf e nid :: used) c ec hu1 hec hb1
        refine ⟨.defMinmax (ridOf e nid) d mn mx, used2, ?_,
          ⟨hinv.1, hinv.2.1, fun x hx => hinv.2.2 x (List.mem_cons_of_mem _ hx)⟩,
          fun hmem => absurd hmem hin,
          fun _ => ⟨rfl, rfl, hinv.2.2 _ (List.mem_cons_self _ _)⟩⟩
        simp only [processRule, hlook]
        rw [if_neg hin, hsh]
        show (match processRule store fuel (ridOf e nid :: used) c with
          | Except.error e1 => (Except.error e1 : Except Unit (RuleDef × List RuleId))
          | Except.ok (d1, u2) => Except.ok (.defMinmax (ridOf e nid) d1 mn mx, u2)) =
          Except.ok (.defMinmax (ridOf e nid) d mn mx, used2)
        rw [hrun]
      | orS cs =>
        have hcs : ∀ c1 ∈ cs, ∃ ec, lookupStore store c1 = some ec := by
          intro c1 hc1
          exact closedStore_child hclosed hlook (by rw [hsh]; exact hc1)
        obtain ⟨ds, used2, hrun, hinv⟩ :=
          procChildren_spec store fuel ihWeak cs (ridOf e nid :: used) hcs hu1 hb1
        refine ⟨.defOr (ridOf e nid) ds, used2, ?_,
          ⟨hinv.1, hinv.2.1, fun x hx => hinv.2.2 x (List.mem_cons_of_mem _ hx)⟩,
          fun hmem => absurd hmem hin,
          fun _ => ⟨rfl, rfl, hinv.2.2 _ (List.mem_cons_self _ _)⟩⟩
        simp only [processRule, hlook]
        rw [if_neg hin, hsh]
        show (match procChildren (fun u n => processRule store fuel u n) cs
            (ridOf e nid :: used) with
          | Except.error e1 => (Except.error e1 : Except Unit (RuleDef × List RuleId))
          | Except.ok (ds1, u2) => Except.ok (.defOr (ridOf e nid) ds1, u2)) =
          Except.ok (.defOr (ridOf e nid) ds, used2)
        rw [hrun]
      | conjoinedS cs =>
        have hcs : ∀ c1 ∈ cs, ∃ ec, lookupStore store c1 = some ec := by
          intro c1 hc1
          exact closedStore_child hclosed hlook (by rw [hsh]; exact hc1)
        obtain ⟨ds, used2, hrun, hinv⟩ :=
          procChildren_spec store fuel ihWeak cs (ridOf e nid :: used) hcs hu1 hb1
        refine ⟨.defConjoined (ridOf e nid) ds, used2, ?_,
          ⟨hinv.1, hinv.2.1, fun x hx => hinv.2.2 x (List.mem_cons_of_mem _ hx)⟩,
          fun hmem => absurd hmem hin,
          fun _ => ⟨rfl, rfl, hinv.2.2 _ (List.mem_cons_self _ _)⟩⟩
        simp only [processRule, hlook]
        rw [if_neg hin, hsh]
        show (match procChildren (fun u n => processRule store fuel u n) cs
            (ridOf e nid :: used) with
          | Except.error e1 => (Except.error e1 : Except Unit (RuleDef × List RuleId))
          | Except.ok (ds1, u2) => Except.ok (.defConjoined (ridOf e nid) ds1, u2)) =
          Except.ok (.defConjoined (ridOf e nid) ds, used2)
        rw [hrun]

/-- C8 (witness): a two-object heap whose `Or` root holds the same child
instance twice generates in bounded fuel; the traversal registers both ids
once and the second visit to the shared child becomes a reference. -/
theorem claim_C8_witness :
    ∃ d used2,
      processRule [(0, ⟨.orS [1, 1], none⟩), (1, ⟨.literal "a".toList, none⟩)] 3 [] 0 =
        .ok (d, used2) ∧
      ProcInv [(0, ⟨.orS [1, 1], none⟩), (1, ⟨.literal "a".toList, none⟩)] [] used2 ∧
      (ridOf ⟨.orS [1, 1], none⟩ 0 ∈ ([] : List RuleId) →
        d = .ref (ridOf ⟨.orS [1, 1], none⟩ 0) ∧ used2 = []) ∧
      (ridOf ⟨.orS [1, 1], none⟩ 0 ∉ ([] : List RuleId) →
        topRid d = ridOf ⟨.orS [1, 1], none⟩ 0 ∧ isRef d = false ∧
          ridOf ⟨.orS [1, 1], none⟩ 0 ∈ used2) :=
  claim_C8 [(0, ⟨.orS [1, 1], none⟩), (1, ⟨.literal "a".toList, none⟩)] (by decide)
    3 [] 0 ⟨.orS [1, 1], none⟩ ⟨List.nodup_nil, by simp⟩ rfl (by decide)

end Comparse
